import Mathlib

/-
Verification of the score-reconciliation core of the autograder.

The embedded code lives in two files of the repository:
  * grader_engine/text_grader.py   — `_as_int`, `_normalize`, `_align_and_clamp`,
    `_feedback_header` and the post-processing part of `grade_answer`;
  * pages/2_grading_result.py      — `_normalize_criteria`, `_align_to_rubric`,
    `_total_possible`, `_dedupe_feedback`.

Modelling conventions:
  * Python strings are modelled as `List Char`; string literals are written
    with `".."​.data` free, and character classes (`\s`, `\W`, `str.lower`,
    `str.strip`) are modelled over their ASCII behaviour.
  * A Python `float` carries an exact rational value; `round` on a float is
    round-half-to-even on that exact value, which is what we implement.
    Numeric strings are parsed as exact decimal literals (no binary rounding,
    no overflow-to-infinity, no `_` digit separators).
  * `difflib.SequenceMatcher.ratio` is implemented for the no-junk case
    (`autojunk` only triggers on strings of length ≥ 200, far beyond any
    rubric label exercised here): total size of the recursively found
    longest matching blocks, doubled, over the sum of the lengths.
    `difflib.get_close_matches(w, keys, n=1, cutoff)` keeps the keys whose
    ratio against `w` is at least `cutoff` and returns the best of them
    (ties broken towards the lexicographically larger key, as `heapq.nlargest`
    does on `(score, key)` pairs).  Ratio and cutoff comparisons are done over
    exact fractions instead of IEEE doubles.
-/

namespace Autograder

/-! ### Python character/string primitives -/

/-- ASCII whitespace recognised by Python's `str.strip` and by `\s`. -/
def pySpace (c : Char) : Bool :=
  c = ' ' || c = '\t' || c = '\n' || c = '\r' || c = Char.ofNat 11 || c = Char.ofNat 12

/-- Python's `\w` word characters (ASCII behaviour). -/
def isWordChar (c : Char) : Bool :=
  c.isAlpha || c.isDigit || c = '_'

/-- Python `str.strip()`: drop whitespace from both ends. -/
def pyStrip (l : List Char) : List Char :=
  ((l.dropWhile pySpace).reverse.dropWhile pySpace).reverse

/-- Split a text at every single newline.  `re.split(r"[\n]+", t)` splits at
runs of newlines instead, but both agree after empty pieces are discarded,
which every caller in the source does. -/
def splitNl : List Char → List (List Char)
  | [] => [[]]
  | c :: cs =>
    if c = '\n' then [] :: splitNl cs
    else
      match splitNl cs with
      | [] => [[c]]
      | p :: ps => (c :: p) :: ps

/-- `"\n".join(...)`: the pieces with a single newline between consecutive
pieces. -/
def joinNl : List (List Char) → List Char
  | [] => []
  | [p] => p
  | p :: ps => p ++ '\n' :: joinNl ps

/-- Helper for `re.sub(r"\s+", " ", s)`: the flag says whether the previous
character was whitespace, in which case further whitespace is swallowed. -/
def collapseWsAux : Bool → List Char → List Char
  | _, [] => []
  | prev, c :: cs =>
    if pySpace c then
      if prev then collapseWsAux true cs else ' ' :: collapseWsAux true cs
    else c :: collapseWsAux false cs

/-- `re.sub(r"\s+", " ", s)`: collapse every run of whitespace to one space. -/
def collapseWs (l : List Char) : List Char :=
  collapseWsAux false l

/-- `_normalize` / `_normalize_criteria`:
`re.sub(r"\s+", " ", s.strip().lower())`. -/
def normalize (s : List Char) : List Char :=
  collapseWs ((pyStrip s).map Char.toLower)

/-- Helper for `re.sub(r"\W+", " ", s)`: the flag says whether the previous
character was a non-word character, in which case the run already emitted its
space. -/
def collapseNonWordAux : Bool → List Char → List Char
  | _, [] => []
  | prev, c :: cs =>
    if isWordChar c then c :: collapseNonWordAux false cs
    else if prev then collapseNonWordAux true cs
    else ' ' :: collapseNonWordAux true cs

/-- `re.sub(r"\W+", " ", s)`: collapse every run of non-word characters to
one space. -/
def collapseNonWord (l : List Char) : List Char :=
  collapseNonWordAux false l

/-! ### Feedback de-duplication (`_dedupe_feedback`) -/

/-- The comparison key of a feedback line:
`re.sub(r"\W+", " ", ln.lower()).strip()`. -/
def dedupeKey (l : List Char) : List Char :=
  pyStrip (collapseNonWord (l.map Char.toLower))

/-- The list of stripped, non-empty lines of a text:
`[l.strip() for l in re.split(r"[\n]+", text or "") if l.strip()]`. -/
def linesOf (t : List Char) : List (List Char) :=
  ((splitNl t).map pyStrip).filter (fun l => !l.isEmpty)

/-- The main loop of `_dedupe_feedback`: keep a line unless its key was
already seen. -/
def dedupeLoop : List (List Char) → List (List Char) → List (List Char)
  | _, [] => []
  | seen, l :: rest =>
    if dedupeKey l ∈ seen then dedupeLoop seen rest
    else l :: dedupeLoop (dedupeKey l :: seen) rest

/-- The de-duplicated line list of `_dedupe_feedback`. -/
def dedupeLines (t : List Char) : List (List Char) :=
  dedupeLoop [] (linesOf t)

/-- `_dedupe_feedback` (pages/2_grading_result.py, lines 118–124). -/
def dedupeFeedback (t : List Char) : List Char :=
  joinNl (dedupeLines t)

/-- Keep the first line of every key, drop every later line whose key equals
that of an earlier line.  Reference rendering of the de-duplication policy,
used to characterise `dedupeLoop`. -/
def keepFirstByKey : List (List Char) → List (List Char)
  | [] => []
  | l :: rest =>
    l :: keepFirstByKey (rest.filter (fun m => decide (dedupeKey m ≠ dedupeKey l)))
termination_by l => l.length
decreasing_by
  simp only [List.length_cons]
  exact Nat.lt_succ_of_le (List.length_filter_le _ _)

/-! ### Exact fractions

Mathlib's `Rat` operations do not evaluate inside the kernel, so every
executable rational value is carried as an explicit numerator/denominator
pair with a positive denominator, compared by cross-multiplication; `Frac.val`
gives the rational value the pair stands for, and is what the theorems talk
about. -/

structure Frac where
  num : Int
  den : Nat
deriving DecidableEq

/-- The rational value of a fraction. -/
def Frac.val (q : Frac) : Rat :=
  (q.num : Rat) / (q.den : Rat)

/-- Value comparison `a ≤ b` (valid for positive denominators). -/
def Frac.le (a b : Frac) : Bool :=
  decide (a.num * (b.den : Int) ≤ b.num * (a.den : Int))

/-- Value comparison `a < b` (valid for positive denominators). -/
def Frac.lt (a b : Frac) : Bool :=
  decide (a.num * (b.den : Int) < b.num * (a.den : Int))

/-- Value equality `a == b` (valid for positive denominators). -/
def Frac.eqv (a b : Frac) : Bool :=
  decide (a.num * (b.den : Int) = b.num * (a.den : Int))

/-! ### Numeric coercion (`_as_int`) -/

/-- An untrusted raw JSON value, as `_as_int` receives it.  A Python float is
carried as its exact rational value; `vnone` stands for every non-numeric,
non-string payload (`None`, lists, dicts, booleans are not modelled). -/
inductive RawVal
  | vint (i : Int)
  | vfloat (q : Frac)
  | vstr (s : List Char)
  | vnone
deriving DecidableEq

/-- Python 3 `round` to an integer: nearest integer, ties to even.  `f` is
`⌊q⌋` (floor division works because the denominator is positive) and `r2` is
`2·(q − f)·den`, which sits in `[0, 2·den)`. -/
def roundHalfEven (q : Frac) : Int :=
  let f := q.num.fdiv (q.den : Int)
  let r2 := 2 * (q.num - f * (q.den : Int))
  if r2 < (q.den : Int) then f
  else if (q.den : Int) < r2 then f + 1
  else if f % 2 = 0 then f else f + 1

/-- Value of a decimal digit string (most significant first). -/
def digitsToNat (ds : List Char) : Nat :=
  ds.foldl (fun n c => n * 10 + (c.toNat - '0'.toNat)) 0

/-- The exponent suffix of a float literal: empty, or `e`/`E`, an optional
sign, and a non-empty digit string that consumes the rest. -/
def expPart : List Char → Option Int
  | [] => some 0
  | c :: t =>
    if c = 'e' ∨ c = 'E' then
      let st : Int × List Char :=
        match t with
        | '+' :: u => (1, u)
        | '-' :: u => (-1, u)
        | u => (1, u)
      if st.2 ≠ [] ∧ st.2.all Char.isDigit then some (st.1 * (digitsToNat st.2 : Int))
      else none
    else none

/-- Python `float(s)` on an already-stripped string, for plain decimal
literals: optional sign, digits with an optional fractional part, optional
exponent.  `inf`/`nan` inputs are mapped to `none`; `_as_int` turns them into
its default through an exception, so the observable result is the same. -/
def pyFloatParse (s : List Char) : Option Frac :=
  let sr : Int × List Char :=
    match s with
    | '+' :: t => (1, t)
    | '-' :: t => (-1, t)
    | t => (1, t)
  let ip := sr.2.takeWhile Char.isDigit
  let r2 := sr.2.dropWhile Char.isDigit
  let fr : List Char × List Char :=
    match r2 with
    | '.' :: t => (t.takeWhile Char.isDigit, t.dropWhile Char.isDigit)
    | t => ([], t)
  if ip = [] ∧ fr.1 = [] then none
  else
    match expPart fr.2 with
    | some e =>
      let mant : Int := (digitsToNat ip * 10 ^ fr.1.length + digitsToNat fr.1 : Nat)
      if 0 ≤ e then some ⟨sr.1 * mant * 10 ^ e.toNat, 10 ^ fr.1.length⟩
      else some ⟨sr.1 * mant, 10 ^ fr.1.length * 10 ^ (-e).toNat⟩
    | none => none

/-- `_as_int` (grader_engine/text_grader.py, lines 125–133): an int passes
through, a float is rounded (`int(round(x))`), a string is stripped, parsed
with `float` and rounded, and anything else — or any exception on the way —
yields the default. -/
def asInt (x : RawVal) (d : Int) : Int :=
  match x with
  | .vint i => i
  | .vfloat q => roundHalfEven q
  | .vstr s =>
    match pyFloatParse (pyStrip s) with
    | some q => roundHalfEven q
    | none => d
  | .vnone => d

/-- Python `==` between the coerced int and the raw value, as used by the
`s != s_raw` check of `_align_and_clamp` (numeric cross-type equality;
a string or `None` never equals an int). -/
def rawEqInt (n : Int) (x : RawVal) : Bool :=
  match x with
  | .vint i => decide (n = i)
  | .vfloat q => decide (q.num = n * (q.den : Int))
  | .vstr _ => false
  | .vnone => false

/-- Decimal digits, fuelled so that the kernel can evaluate it;  `n + 1`
units of fuel always suffice since the value shrinks by a factor of ten per
step. -/
def natDigitsF : Nat → Nat → List Char
  | 0, _ => []
  | fuel + 1, n =>
    if n < 10 then [Char.ofNat (48 + n)]
    else natDigitsF fuel (n / 10) ++ [Char.ofNat (48 + n % 10)]

/-- Decimal digits of a natural number, most significant first. -/
def natDigits (n : Nat) : List Char :=
  natDigitsF (n + 1) n

/-- Decimal rendering of an integer, as a Python f-string does it. -/
def intToStr (i : Int) : List Char :=
  if i < 0 then '-' :: natDigits i.natAbs else natDigits i.toNat

/-! ### Sequence similarity (`difflib`) -/

/-- Length of the longest common prefix of two strings:  the size of the
matching block that starts at a given pair of positions. -/
def runLen : List Char → List Char → Nat
  | a :: as, b :: bs => if a = b then runLen as bs + 1 else 0
  | _, _ => 0

theorem runLen_le_left : ∀ a b : List Char, runLen a b ≤ a.length
  | [], _ => by simp [runLen]
  | _ :: _, [] => by simp [runLen]
  | a :: as, b :: bs => by
    by_cases h : a = b <;> simp [runLen, h]
    exact runLen_le_left as bs

theorem runLen_le_right : ∀ a b : List Char, runLen a b ≤ b.length
  | [], _ => by simp [runLen]
  | _ :: _, [] => by simp [runLen]
  | a :: as, b :: bs => by
    by_cases h : a = b <;> simp [runLen, h]
    exact runLen_le_right as bs

/-- One step of the scan for the longest matching block: a candidate start
pair replaces the current best only if its run is strictly longer, so the
earliest longest block wins. -/
def flmStep (a b : List Char) (best : Nat × Nat × Nat) (ij : Nat × Nat) : Nat × Nat × Nat :=
  let k := runLen (a.drop ij.1) (b.drop ij.2)
  if best.2.2 < k then (ij.1, ij.2, k) else best

/-- `SequenceMatcher.find_longest_match` over the whole strings (no junk):
the longest matching block, earliest start pairs first. -/
def findLongestMatch (a b : List Char) : Nat × Nat × Nat :=
  ((List.range (a.length + 1)).product (List.range (b.length + 1))).foldl (flmStep a b) (0, 0, 0)

theorem flmFold_bound (a b : List Char) (ps : List (Nat × Nat)) (acc : Nat × Nat × Nat)
    (h : acc.2.2 = 0 ∨ (acc.1 + acc.2.2 ≤ a.length ∧ acc.2.1 + acc.2.2 ≤ b.length)) :
    (ps.foldl (flmStep a b) acc).2.2 = 0 ∨
      ((ps.foldl (flmStep a b) acc).1 + (ps.foldl (flmStep a b) acc).2.2 ≤ a.length ∧
        (ps.foldl (flmStep a b) acc).2.1 + (ps.foldl (flmStep a b) acc).2.2 ≤ b.length) := by
  induction ps generalizing acc with
  | nil => exact h
  | cons p ps ih =>
    apply ih
    unfold flmStep
    by_cases hc : acc.2.2 < runLen (a.drop p.1) (b.drop p.2) <;> simp [hc]
    · have h1 := runLen_le_left (a.drop p.1) (b.drop p.2)
      have h2 := runLen_le_right (a.drop p.1) (b.drop p.2)
      simp only [List.length_drop] at h1 h2
      omega
    · exact h

theorem findLongestMatch_bound (a b : List Char) :
    (findLongestMatch a b).2.2 = 0 ∨
      ((findLongestMatch a b).1 + (findLongestMatch a b).2.2 ≤ a.length ∧
        (findLongestMatch a b).2.1 + (findLongestMatch a b).2.2 ≤ b.length) :=
  flmFold_bound a b _ _ (Or.inl rfl)

/-- Fuelled recursion for the total size of the matching blocks of
`SequenceMatcher.get_matching_blocks` (no junk): the longest match, plus the
blocks found recursively to its left and to its right.
`findLongestMatch_bound` shows every recursive call strictly decreases
`a.length + b.length` (the match is non-empty on both sides), so that much
fuel is always enough. -/
def matchTotalF : Nat → List Char → List Char → Nat
  | 0, _, _ => 0
  | fuel + 1, a, b =>
    let t := findLongestMatch a b
    if t.2.2 = 0 then 0
    else
      matchTotalF fuel (a.take t.1) (b.take t.2.1) + t.2.2 +
        matchTotalF fuel (a.drop (t.1 + t.2.2)) (b.drop (t.2.1 + t.2.2))

/-- Total size of the matching blocks of the two strings. -/
def matchTotal (a b : List Char) : Nat :=
  matchTotalF (a.length + b.length) a b

/-- `SequenceMatcher.ratio()`: twice the matched size over the total length
(`1.0` for two empty strings). -/
def similarity (a b : List Char) : Frac :=
  if a.length + b.length = 0 then ⟨1, 1⟩
  else ⟨2 * (matchTotal a b : Int), a.length + b.length⟩

/-- Lexicographic comparison of strings by character code, Python `<`. -/
def strLt : List Char → List Char → Bool
  | [], [] => false
  | [], _ :: _ => true
  | _ :: _, [] => false
  | a :: as, b :: bs => if a = b then strLt as bs else decide (a < b)

/-- The best key by `(ratio, key)`, as `heapq.nlargest(1, ...)` picks it:
a later key replaces the current best only on a strictly better ratio, or on
an equal ratio and a lexicographically larger key. -/
def pickBestKey (w : List Char) (ks : List (List Char)) : Option (List Char) :=
  ks.foldl
    (fun acc x =>
      match acc with
      | none => some x
      | some b =>
        if Frac.lt (similarity b w) (similarity x w)
            || (Frac.eqv (similarity b w) (similarity x w) && strLt b x) then
          some x
        else some b)
    none

/-- `difflib.get_close_matches(w, ks, n=1, cutoff=c)`: of the keys whose
ratio against `w` reaches the cutoff, the best one, if any. -/
def getCloseMatch1 (w : List Char) (ks : List (List Char)) (c : Frac) : Option (List Char) :=
  pickBestKey w (ks.filter (fun x => Frac.le c (similarity x w)))

/-! ### Alignment (`_align_and_clamp`, `_align_to_rubric`) -/

/-- One rubric entry `{criteria, points}`.  The repository feeds integer
point values; `_as_int` (and the page's `int(...)`) are the identity on
integers, so points are carried as `Int`. -/
structure RubricItem where
  criteria : List Char
  points : Int
deriving DecidableEq

/-- One aligned output entry `{criteria, score}`. -/
structure AlignedItem where
  criteria : List Char
  score : Int
deriving DecidableEq

/-- One element of the raw `rubric_scores` list.  `junk` stands for a
non-dict element, which `_align_and_clamp` skips; a dict is reduced to its
`criteria` string (default `""`) and raw `score` value (default `0`). -/
inductive MItem
  | junk
  | entry (criteria : List Char) (score : RawVal)
deriving DecidableEq

/-- State of the first loop of `_align_and_clamp`: the normalized-label map
`mm` (later assignments shadow earlier ones, so the list is consed in front),
the `keys` list in insertion order (duplicates kept), the `coerced_types`
flag and the `model_items_seen` counter. -/
structure ScanState where
  mm : List (List Char × Int)
  keys : List (List Char)
  coerced : Bool
  seen : Nat
deriving DecidableEq

/-- Lookup in the label map: the front-most (that is, last written) binding. -/
def mmLookup (mm : List (List Char × Int)) (k : List Char) : Option Int :=
  (mm.find? (fun p => decide (p.1 = k))).map (fun p => p.2)

/-- One iteration of the first loop of `_align_and_clamp` (lines 158–170):
skip non-dicts, coerce the score, flag a lossy coercion, and record the
normalized label when it is non-empty. -/
def scanStep (st : ScanState) (it : MItem) : ScanState :=
  match it with
  | .junk => st
  | .entry c sraw =>
    let s := asInt sraw 0
    let co := st.coerced || !rawEqInt s sraw
    let k := normalize c
    if k.isEmpty then ⟨st.mm, st.keys, co, st.seen⟩
    else ⟨(k, s) :: st.mm, st.keys ++ [k], co, st.seen + 1⟩

/-- The first loop of `_align_and_clamp` over the whole raw breakdown. -/
def scanItems (bd : List MItem) : ScanState :=
  bd.foldl scanStep ⟨[], [], false, 0⟩

/-- The score resolved for one rubric criterion (lines 177–181): the exact
normalized match if present, else the accepted fuzzy match's score, else 0. -/
def resolveScore (mm : List (List Char × Int)) (keys : List (List Char)) (c : Frac)
    (norm : List Char) : Int :=
  match mmLookup mm norm with
  | some v => v
  | none =>
    match getCloseMatch1 norm keys c with
    | some m => (mmLookup mm m).getD 0
    | none => 0

/-- Whether a criterion ends up with neither an exact nor a fuzzy match, in
which case its name goes to `unknown_criteria`. -/
def noMatchB (mm : List (List Char × Int)) (keys : List (List Char)) (c : Frac)
    (norm : List Char) : Bool :=
  (mmLookup mm norm).isNone && (getCloseMatch1 norm keys c).isNone

/-- The sanity report of `_align_and_clamp`.  `model_total`/`recomputed_total`
are absent keys until `grade_answer` records a disagreement, modelled with
`Option`. -/
structure Sanity where
  unknown_criteria : List (List Char)
  over_allocated : List (List Char × Int × Int)
  coerced_types : Bool
  model_items_seen : Nat
  model_total : Option Int
  recomputed_total : Option Int
deriving DecidableEq

def emptySanity : Sanity := ⟨[], [], false, 0, none, none⟩

/-- `_align_and_clamp` (grader_engine/text_grader.py, lines 138–190).  The
single Python loop over the rubric appends to `aligned`, `unknown_criteria`
and `over_allocated` independently, so it is decomposed here into one `map`
and two `filter`/`map` passes producing the same three lists in the same
order. -/
def alignAndClamp (rubric : List RubricItem) (bd : List MItem) (c : Frac) :
    List AlignedItem × Sanity :=
  if rubric.isEmpty then ([], emptySanity)
  else
    let st := scanItems bd
    (rubric.map (fun r =>
        ⟨r.criteria, max 0 (min (resolveScore st.mm st.keys c (normalize r.criteria)) r.points)⟩),
      ⟨(rubric.filter (fun r => noMatchB st.mm st.keys c (normalize r.criteria))).map
          (fun r => r.criteria),
        (rubric.filter (fun r =>
            decide (r.points < resolveScore st.mm st.keys c (normalize r.criteria)))).map
          (fun r => (r.criteria, resolveScore st.mm st.keys c (normalize r.criteria), r.points)),
        st.coerced, st.seen, none, none⟩)

/-- `_align_to_rubric` (pages/2_grading_result.py, lines 97–113).  Same
alignment loop without a sanity report; the `model_total` argument is
accepted and never read, exactly as in the source.  The page's raw entries
are plain `(criteria, score)` dicts. -/
def alignToRubric (rubric : List RubricItem) (bd : List (List Char × RawVal))
    (model_total : Int) (c : Frac) : List AlignedItem :=
  if rubric.isEmpty then []
  else
    let st := bd.foldl
      (fun (acc : List (List Char × Int) × List (List Char)) it =>
        let sc := asInt it.2 0
        let k := normalize it.1
        if k.isEmpty then acc else ((k, sc) :: acc.1, acc.2 ++ [k]))
      ([], [])
    rubric.map (fun r =>
      ⟨r.criteria, max 0 (min (resolveScore st.1 st.2 c (normalize r.criteria)) r.points)⟩)

/-! ### Feedback header and `grade_answer` post-processing -/

/-- `_total_possible` / the header's denominator:
`sum(_as_int(r.get("points", 0)) for r in rubric)`. -/
def totalPossible (rubric : List RubricItem) : Int :=
  (rubric.map (fun r => r.points)).sum

/-- The `lines` list built by `_feedback_header` (text_grader.py, 192–197):
a bold total line, the literal `Rubric Breakdown:` line, and one line per
`zip(rubric, aligned)` pair. -/
def headerLines (rubric : List RubricItem) (aligned : List AlignedItem) (total : Int) :
    List (List Char) :=
  ("**Total: ".data ++ intToStr total ++ "/".data ++ intToStr (totalPossible rubric)
      ++ "**".data) ::
    "Rubric Breakdown:".data ::
    (rubric.zip aligned).map (fun p =>
      "- ".data ++ p.1.criteria ++ ": ".data ++ intToStr p.2.score ++ "/".data
        ++ intToStr p.1.points)

/-- `_feedback_header`: the lines joined with newlines. -/
def feedbackHeader (rubric : List RubricItem) (aligned : List AlignedItem) (total : Int) :
    List Char :=
  joinNl (headerLines rubric aligned total)

/-- The structured payload `grade_answer` extracts from the raw model output.
`none` models the parse-failure case where `parsed` ends up `{}`, so every
`get` falls back to its default. -/
structure ParsedResponse where
  total_score : RawVal
  rubric_scores : List MItem
  feedback : List Char

def parsedTotalScore (p : Option ParsedResponse) : Int :=
  asInt (match p with | some q => q.total_score | none => RawVal.vint 0) 0

def parsedBreakdown (p : Option ParsedResponse) : List MItem :=
  match p with | some q => q.rubric_scores | none => []

def parsedFeedback (p : Option ParsedResponse) : List Char :=
  match p with | some q => q.feedback | none => []

/-- The result dict of `grade_answer`, with the sanity report that the debug
payload carries. -/
structure GradeResult where
  total_score : Int
  rubric_scores : List AlignedItem
  feedback : List Char
  sanity : Sanity

/-- The default fuzzy cutoff `0.60` of `_align_and_clamp` and
`_align_to_rubric`. -/
def cutoff060 : Frac := ⟨3, 5⟩

/-- The post-processing tail of `grade_answer` (text_grader.py, lines
303–341): extract the fields, align and clamp against the rubric with the
default cutoff `0.60`, recompute the total from the aligned scores, record a
total disagreement in the sanity report, and assemble the feedback from the
deterministic header and the stripped model feedback body. -/
def gradeAnswerPost (rubric : List RubricItem) (parsed : Option ParsedResponse)
    (includeHeader : Bool) : GradeResult :=
  let model_total := parsedTotalScore parsed
  let ar := alignAndClamp rubric (parsedBreakdown parsed) cutoff060
  let total_awarded := (ar.1.map (fun a => a.score)).sum
  let sanity :=
    if model_total = total_awarded then ar.2
    else
      ⟨ar.2.unknown_criteria, ar.2.over_allocated, ar.2.coerced_types, ar.2.model_items_seen,
        some model_total, some total_awarded⟩
  let body := pyStrip (parsedFeedback parsed)
  let feedback :=
    if includeHeader then
      feedbackHeader rubric ar.1 total_awarded ++ (if body.isEmpty then [] else '\n' :: '\n' :: body)
    else body
  ⟨total_awarded, ar.1, feedback, sanity⟩

/-! ## Helper lemmas -/

theorem alignAndClamp_fst (rubric : List RubricItem) (bd : List MItem) (c : Frac) :
    (alignAndClamp rubric bd c).1 =
      rubric.map (fun r =>
        ⟨r.criteria,
          max 0 (min (resolveScore (scanItems bd).mm (scanItems bd).keys c (normalize r.criteria))
            r.points)⟩) := by
  unfold alignAndClamp
  by_cases h : rubric.isEmpty
  · rw [List.isEmpty_iff] at h
    subst h
    simp
  · simp [h]

theorem alignAndClamp_unknown (rubric : List RubricItem) (bd : List MItem) (c : Frac)
    (h : rubric ≠ []) :
    (alignAndClamp rubric bd c).2.unknown_criteria =
      (rubric.filter (fun r =>
        noMatchB (scanItems bd).mm (scanItems bd).keys c (normalize r.criteria))).map
        (fun r => r.criteria) := by
  unfold alignAndClamp
  rw [if_neg (by simpa [List.isEmpty_iff] using h)]

theorem alignAndClamp_over (rubric : List RubricItem) (bd : List MItem) (c : Frac)
    (h : rubric ≠ []) :
    (alignAndClamp rubric bd c).2.over_allocated =
      (rubric.filter (fun r =>
        decide (r.points < resolveScore (scanItems bd).mm (scanItems bd).keys c
          (normalize r.criteria)))).map
        (fun r => (r.criteria, resolveScore (scanItems bd).mm (scanItems bd).keys c
          (normalize r.criteria), r.points)) := by
  unfold alignAndClamp
  rw [if_neg (by simpa [List.isEmpty_iff] using h)]

theorem alignToRubric_eq (rubric : List RubricItem) (bd : List (List Char × RawVal))
    (mt : Int) (c : Frac) :
    alignToRubric rubric bd mt c =
      rubric.map (fun r =>
        ⟨r.criteria,
          max 0 (min (resolveScore
            (bd.foldl (fun acc it =>
              let sc := asInt it.2 0
              let k := normalize it.1
              if k.isEmpty then acc else ((k, sc) :: acc.1, acc.2 ++ [k])) ([], [])).1
            (bd.foldl (fun acc it =>
              let sc := asInt it.2 0
              let k := normalize it.1
              if k.isEmpty then acc else ((k, sc) :: acc.1, acc.2 ++ [k])) ([], [])).2
            c (normalize r.criteria)) r.points)⟩) := by
  unfold alignToRubric
  by_cases h : rubric.isEmpty
  · rw [List.isEmpty_iff] at h
    subst h
    simp
  · simp [h]

/-! ## Claims -/

/-- C3.  For every rubric and every raw breakdown, the aligned output of
`_align_and_clamp` and of `_align_to_rubric` has exactly one entry per rubric
criterion, and the i-th aligned entry carries the name of the i-th rubric
criterion: the criteria-name projections of both outputs equal the rubric's,
so counts and order always match. -/
theorem C3_count_and_order (rubric : List RubricItem) (bd : List MItem)
    (bd2 : List (List Char × RawVal)) (mt : Int) (c : Frac) :
    (alignAndClamp rubric bd c).1.map (fun a => a.criteria)
        = rubric.map (fun r => r.criteria) ∧
      (alignAndClamp rubric bd c).1.length = rubric.length ∧
      (alignToRubric rubric bd2 mt c).map (fun a => a.criteria)
        = rubric.map (fun r => r.criteria) ∧
      (alignToRubric rubric bd2 mt c).length = rubric.length := by
  rw [alignAndClamp_fst, alignToRubric_eq]
  simp [List.map_map, Function.comp]

/-- C1.  Every aligned score of `_align_and_clamp` (and of `_align_to_rubric`)
lies in `[0, maxPoints]` for its criterion (rubric points are non-negative in
the data model), the value returned is the clamp of the resolved pre-clamp
score, and an over-allocated pre-clamp score is clamped down to `maxPoints`
and recorded in the sanity report. -/
theorem C1_clamped_bounds :
    (∀ (rubric : List RubricItem) (bd : List MItem) (c : Frac) (i : Nat) (r : RubricItem),
      rubric[i]? = some r → 0 ≤ r.points →
      ∃ a : AlignedItem,
        (alignAndClamp rubric bd c).1[i]? = some a ∧
        0 ≤ a.score ∧ a.score ≤ r.points ∧
        a.score = max 0 (min (resolveScore (scanItems bd).mm (scanItems bd).keys c
          (normalize r.criteria)) r.points) ∧
        (r.points < resolveScore (scanItems bd).mm (scanItems bd).keys c (normalize r.criteria) →
          a.score = r.points ∧
          (r.criteria, resolveScore (scanItems bd).mm (scanItems bd).keys c (normalize r.criteria),
            r.points) ∈ (alignAndClamp rubric bd c).2.over_allocated)) ∧
    (∀ (rubric : List RubricItem) (bd2 : List (List Char × RawVal)) (mt : Int) (c : Frac)
      (i : Nat) (r : RubricItem),
      rubric[i]? = some r → 0 ≤ r.points →
      ∃ a : AlignedItem,
        (alignToRubric rubric bd2 mt c)[i]? = some a ∧ 0 ≤ a.score ∧ a.score ≤ r.points) := by
  constructor
  · intro rubric bd c i r hr hp
    have hmem : r ∈ rubric := List.getElem?_mem hr
    refine ⟨⟨r.criteria,
        max 0 (min (resolveScore (scanItems bd).mm (scanItems bd).keys c (normalize r.criteria))
          r.points)⟩, ?_, ?_, ?_, rfl, ?_⟩
    · rw [alignAndClamp_fst, List.getElem?_map, hr, Option.map_some']
    · exact le_max_left 0 _
    · exact max_le hp (min_le_right _ _)
    · intro hover
      constructor
      · dsimp only
        omega
      · rw [alignAndClamp_over _ _ _ (List.ne_nil_of_mem hmem)]
        refine List.mem_map.2 ⟨r, List.mem_filter.2 ⟨hmem, by simpa using hover⟩, rfl⟩
  · intro rubric bd2 mt c i r hr hp
    refine ⟨⟨r.criteria,
        max 0 (min (resolveScore
          (bd2.foldl (fun acc it =>
            let sc := asInt it.2 0
            let k := normalize it.1
            if k.isEmpty then acc else ((k, sc) :: acc.1, acc.2 ++ [k])) ([], [])).1
          (bd2.foldl (fun acc it =>
            let sc := asInt it.2 0
            let k := normalize it.1
            if k.isEmpty then acc else ((k, sc) :: acc.1, acc.2 ++ [k])) ([], [])).2
          c (normalize r.criteria)) r.points)⟩, ?_, ?_, ?_⟩
    · rw [alignToRubric_eq, List.getElem?_map, hr, Option.map_some']
    · exact le_max_left 0 _
    · exact max_le hp (min_le_right _ _)

/-- Witness for C1 at a concrete input: an over-reported score of 5 against a
2-point criterion comes back as 2 and is recorded. -/
theorem C1_clamped_bounds_witness :
    ∃ a : AlignedItem,
      (alignAndClamp [⟨"a".data, 2⟩] [MItem.entry "a".data (RawVal.vint 5)] cutoff060).1[0]?
          = some a ∧
        0 ≤ a.score ∧ a.score ≤ 2 ∧
        a.score = max 0 (min (resolveScore (scanItems [MItem.entry "a".data (RawVal.vint 5)]).mm
          (scanItems [MItem.entry "a".data (RawVal.vint 5)]).keys cutoff060
          (normalize "a".data)) 2) ∧
        (2 < resolveScore (scanItems [MItem.entry "a".data (RawVal.vint 5)]).mm
            (scanItems [MItem.entry "a".data (RawVal.vint 5)]).keys cutoff060
            (normalize "a".data) →
          a.score = 2 ∧
          ("a".data, resolveScore (scanItems [MItem.entry "a".data (RawVal.vint 5)]).mm
            (scanItems [MItem.entry "a".data (RawVal.vint 5)]).keys cutoff060
            (normalize "a".data), 2)
            ∈ (alignAndClamp [⟨"a".data, 2⟩] [MItem.entry "a".data (RawVal.vint 5)]
                cutoff060).2.over_allocated) :=
  C1_clamped_bounds.1 [⟨"a".data, 2⟩] [MItem.entry "a".data (RawVal.vint 5)] cutoff060 0
    ⟨"a".data, 2⟩ (by decide) (by decide)

theorem alignAndClamp_totals_none (rubric : List RubricItem) (bd : List MItem) (c : Frac) :
    (alignAndClamp rubric bd c).2.model_total = none ∧
      (alignAndClamp rubric bd c).2.recomputed_total = none := by
  unfold alignAndClamp
  by_cases h : rubric.isEmpty <;> simp [h, emptySanity]

theorem gradeAnswerPost_total_eq (rubric : List RubricItem) (parsed : Option ParsedResponse)
    (ih : Bool) :
    (gradeAnswerPost rubric parsed ih).total_score
      = ((alignAndClamp rubric (parsedBreakdown parsed) cutoff060).1.map
          (fun a => a.score)).sum := rfl

theorem gradeAnswerPost_scores_eq (rubric : List RubricItem) (parsed : Option ParsedResponse)
    (ih : Bool) :
    (gradeAnswerPost rubric parsed ih).rubric_scores
      = (alignAndClamp rubric (parsedBreakdown parsed) cutoff060).1 := rfl

theorem gradeAnswerPost_sanity_eq (rubric : List RubricItem) (parsed : Option ParsedResponse)
    (ih : Bool) :
    (gradeAnswerPost rubric parsed ih).sanity =
      if parsedTotalScore parsed
          = ((alignAndClamp rubric (parsedBreakdown parsed) cutoff060).1.map
              (fun a => a.score)).sum
      then (alignAndClamp rubric (parsedBreakdown parsed) cutoff060).2
      else
        ⟨(alignAndClamp rubric (parsedBreakdown parsed) cutoff060).2.unknown_criteria,
          (alignAndClamp rubric (parsedBreakdown parsed) cutoff060).2.over_allocated,
          (alignAndClamp rubric (parsedBreakdown parsed) cutoff060).2.coerced_types,
          (alignAndClamp rubric (parsedBreakdown parsed) cutoff060).2.model_items_seen,
          some (parsedTotalScore parsed),
          some (((alignAndClamp rubric (parsedBreakdown parsed) cutoff060).1.map
            (fun a => a.score)).sum)⟩ := rfl

/-- C2.  The `total_score` of a `grade_answer` result always equals the sum of
its aligned `rubric_scores`; whenever the generator's claimed total disagrees
with that sum, the result's total differs from the claimed one and both
values are recorded in the sanity report (and nothing is recorded when they
agree). -/
theorem C2_total_consistency (rubric : List RubricItem) (parsed : Option ParsedResponse)
    (ih : Bool) :
    (gradeAnswerPost rubric parsed ih).total_score
        = ((gradeAnswerPost rubric parsed ih).rubric_scores.map (fun a => a.score)).sum ∧
      (parsedTotalScore parsed ≠ (gradeAnswerPost rubric parsed ih).total_score →
        (gradeAnswerPost rubric parsed ih).total_score ≠ parsedTotalScore parsed ∧
        (gradeAnswerPost rubric parsed ih).sanity.model_total = some (parsedTotalScore parsed) ∧
        (gradeAnswerPost rubric parsed ih).sanity.recomputed_total
          = some (gradeAnswerPost rubric parsed ih).total_score) ∧
      (parsedTotalScore parsed = (gradeAnswerPost rubric parsed ih).total_score →
        (gradeAnswerPost rubric parsed ih).sanity.model_total = none ∧
        (gradeAnswerPost rubric parsed ih).sanity.recomputed_total = none) := by
  have hnone := alignAndClamp_totals_none rubric (parsedBreakdown parsed) cutoff060
  simp only [gradeAnswerPost_total_eq, gradeAnswerPost_scores_eq, gradeAnswerPost_sanity_eq]
  by_cases h :
      parsedTotalScore parsed
        = ((alignAndClamp rubric (parsedBreakdown parsed) cutoff060).1.map
            (fun a => a.score)).sum
  · rw [if_pos h]
    exact ⟨trivial, fun hne => absurd h hne, fun _ => hnone⟩
  · rw [if_neg h]
    exact ⟨trivial, fun _ => ⟨fun hEq => h hEq.symm, rfl, rfl⟩, fun hEq => absurd hEq h⟩

/-- Witness for C2 at a concrete input: the generator claims 7, the aligned
sum is 1, the result keeps 1 and records both values. -/
theorem C2_total_consistency_witness :
    (gradeAnswerPost [⟨"a".data, 2⟩]
          (some ⟨RawVal.vint 7, [MItem.entry "a".data (RawVal.vint 1)], []⟩) false).total_score
        ≠ parsedTotalScore
            (some ⟨RawVal.vint 7, [MItem.entry "a".data (RawVal.vint 1)], []⟩) ∧
      (gradeAnswerPost [⟨"a".data, 2⟩]
          (some ⟨RawVal.vint 7, [MItem.entry "a".data (RawVal.vint 1)], []⟩) false).sanity.model_total
        = some (parsedTotalScore
            (some ⟨RawVal.vint 7, [MItem.entry "a".data (RawVal.vint 1)], []⟩)) ∧
      (gradeAnswerPost [⟨"a".data, 2⟩]
          (some ⟨RawVal.vint 7, [MItem.entry "a".data (RawVal.vint 1)], []⟩) false).sanity.recomputed_total
        = some (gradeAnswerPost [⟨"a".data, 2⟩]
            (some ⟨RawVal.vint 7, [MItem.entry "a".data (RawVal.vint 1)], []⟩) false).total_score :=
  (C2_total_consistency [⟨"a".data, 2⟩]
      (some ⟨RawVal.vint 7, [MItem.entry "a".data (RawVal.vint 1)], []⟩) false).2.1 (by decide)

/-- C6.  The claim asserts a proportional fallback: with an empty breakdown
and a reported total of 2 against a 2-point + 1-point rubric, the aligned
scores should sum to `clamp(round(2), 0, 3) = 2`.  The code has no such
fallback — `_align_to_rubric` accepts `model_total` and never reads it — so
every criterion scores 0 and the sum is 0, not 2. -/
theorem C6_no_proportional_fallback :
    alignToRubric [⟨"Define X".data, 2⟩, ⟨"Give example".data, 1⟩] [] 2 cutoff060
        = [⟨"Define X".data, 0⟩, ⟨"Give example".data, 0⟩] ∧
      ((alignToRubric [⟨"Define X".data, 2⟩, ⟨"Give example".data, 1⟩] [] 2 cutoff060).map
          (fun a => a.score)).sum = 0 ∧
      max (0 : Int) (min 2 (totalPossible [⟨"Define X".data, 2⟩, ⟨"Give example".data, 1⟩])) = 2 := by
  refine ⟨by decide, by decide, by decide⟩

/-- C7, counterexample.  On a parse failure (`parsed = {}`), the claim says
the feedback text explains the failure and `unknown_criteria` stays unused.
In fact the pipeline runs the full alignment against the empty breakdown:
every rubric criterion lands in `unknown_criteria`, and the feedback is the
bare deterministic header with no explanatory message. -/
theorem C7_parse_failure_counterexample :
    (gradeAnswerPost [⟨"Define X".data, 2⟩] none true).sanity.unknown_criteria
        = ["Define X".data] ∧
      (gradeAnswerPost [⟨"Define X".data, 2⟩] none true).sanity.unknown_criteria ≠ [] ∧
      (gradeAnswerPost [⟨"Define X".data, 2⟩] none true).feedback
        = "**Total: 0/2**\nRubric Breakdown:\n- Define X: 0/2".data := by
  refine ⟨by decide, by decide, by decide⟩

/-- C7, amended.  When the raw model output is not valid or extractable JSON,
`grade_answer` still returns a complete result: every rubric criterion scores
0, the total is 0, every criterion's name is appended to the sanity report's
unknown-criteria list (the pipeline does not short-circuit), and the feedback
is exactly the deterministic header (or empty without the header) — no
parse-failure explanation is added. -/
theorem C7_parse_failure_amended (rubric : List RubricItem) (ih : Bool) :
    (∀ a ∈ (gradeAnswerPost rubric none ih).rubric_scores, a.score = 0) ∧
      (gradeAnswerPost rubric none ih).total_score = 0 ∧
      (gradeAnswerPost rubric none ih).sanity.unknown_criteria
        = rubric.map (fun r => r.criteria) ∧
      (gradeAnswerPost rubric none ih).feedback
        = (if ih then feedbackHeader rubric (gradeAnswerPost rubric none ih).rubric_scores 0
           else []) := by
  have hfst := alignAndClamp_fst rubric (parsedBreakdown none) cutoff060
  have hscore : ∀ a ∈ (alignAndClamp rubric (parsedBreakdown none) cutoff060).1, a.score = 0 := by
    rw [hfst]
    intro a ha
    obtain ⟨r, _, rfl⟩ := List.mem_map.1 ha
    have : resolveScore (scanItems (parsedBreakdown none)).mm
        (scanItems (parsedBreakdown none)).keys cutoff060 (normalize r.criteria) = 0 := rfl
    dsimp only
    rw [this]
    omega
  have hsum : ((alignAndClamp rubric (parsedBreakdown none) cutoff060).1.map
      (fun a => a.score)).sum = 0 := by
    apply List.sum_eq_zero
    intro x hx
    obtain ⟨a, ha, rfl⟩ := List.mem_map.1 hx
    exact hscore a ha
  have hunk : (alignAndClamp rubric (parsedBreakdown none) cutoff060).2.unknown_criteria
      = rubric.map (fun r => r.criteria) := by
    rcases eq_or_ne rubric [] with h | h
    · subst h; rfl
    · rw [alignAndClamp_unknown rubric _ cutoff060 h]
      congr 1
      apply List.filter_eq_self.2
      intro r _
      rfl
  unfold gradeAnswerPost
  simp only [hsum, if_pos rfl]
  refine ⟨hscore, trivial, hunk, ?_⟩
  have hbody : pyStrip (parsedFeedback none) = [] := rfl
  rw [hbody]
  by_cases h : ih <;> simp [h]

/-- Witness for C7's amended theorem at a concrete input. -/
theorem C7_parse_failure_amended_witness :
    ((gradeAnswerPost [⟨"Define X".data, 2⟩] none true).rubric_scores.head?
          = some ⟨"Define X".data, 0⟩) ∧
      (gradeAnswerPost [⟨"Define X".data, 2⟩] none true).total_score = 0 := by
  have h := C7_parse_failure_amended [⟨"Define X".data, 2⟩] true
  refine ⟨?_, h.2.1⟩
  have hm : (⟨"Define X".data, 0⟩ : AlignedItem)
      ∈ (gradeAnswerPost [⟨"Define X".data, 2⟩] none true).rubric_scores := by decide
  decide

theorem similarity_den_pos (a b : List Char) : 0 < (similarity a b).den := by
  unfold similarity
  by_cases h : a.length + b.length = 0 <;> simp [h]
  omega

theorem Frac.le_val_iff (a b : Frac) (ha : 0 < a.den) (hb : 0 < b.den) :
    Frac.le a b = true ↔ a.val ≤ b.val := by
  unfold Frac.le Frac.val
  simp only [decide_eq_true_eq]
  rw [div_le_div_iff (by exact_mod_cast ha) (by exact_mod_cast hb)]
  constructor <;> intro h <;> exact_mod_cast h

theorem Frac.lt_val_iff (a b : Frac) (ha : 0 < a.den) (hb : 0 < b.den) :
    Frac.lt a b = true ↔ a.val < b.val := by
  unfold Frac.lt Frac.val
  simp only [decide_eq_true_eq]
  rw [div_lt_div_iff (by exact_mod_cast ha) (by exact_mod_cast hb)]
  constructor <;> intro h <;> exact_mod_cast h

theorem Frac.eqv_val_iff (a b : Frac) (ha : 0 < a.den) (hb : 0 < b.den) :
    Frac.eqv a b = true ↔ a.val = b.val := by
  unfold Frac.eqv Frac.val
  simp only [decide_eq_true_eq]
  rw [div_eq_div_iff (by positivity) (by positivity)]
  constructor <;> intro h <;> exact_mod_cast h

theorem pickBestKey_step_ne_none (w : List Char) (acc : Option (List Char)) (x : List Char) :
    (match acc with
      | none => some x
      | some b =>
        if Frac.lt (similarity b w) (similarity x w)
            || (Frac.eqv (similarity b w) (similarity x w) && strLt b x) then
          some x
        else some b) ≠ none := by
  cases acc <;> simp
  split <;> simp

theorem pickBestKey_none_iff (w : List Char) (ks : List (List Char)) :
    pickBestKey w ks = none ↔ ks = [] := by
  cases ks with
  | nil => simp [pickBestKey]
  | cons x ks =>
    simp only [pickBestKey, List.foldl_cons]
    constructor
    · intro h
      exfalso
      induction ks generalizing x with
      | nil => exact pickBestKey_step_ne_none w (some x) x (by simpa using h)
      | cons y ks ih =>
        rw [List.foldl_cons] at h
        have hne := pickBestKey_step_ne_none w (some x) y
        rcases hs : (match some x with
          | none => some y
          | some b =>
            if Frac.lt (similarity b w) (similarity y w)
                || (Frac.eqv (similarity b w) (similarity y w) && strLt b y) then
              some y
            else some b) with _ | z
        · exact hne hs
        · rw [hs] at h
          exact ih z h
    · intro h
      exact absurd h (by simp)

theorem pickBestKey_spec (w : List Char) (ks : List (List Char)) (acc : Option (List Char))
    (m : List Char)
    (h : ks.foldl
        (fun acc x =>
          match acc with
          | none => some x
          | some b =>
            if Frac.lt (similarity b w) (similarity x w)
                || (Frac.eqv (similarity b w) (similarity x w) && strLt b x) then
              some x
            else some b) acc = some m) :
    (m ∈ ks ∨ acc = some m) ∧
      (∀ k ∈ ks, (similarity k w).val ≤ (similarity m w).val) ∧
      (∀ b, acc = some b → (similarity b w).val ≤ (similarity m w).val) := by
  induction ks generalizing acc with
  | nil =>
    refine ⟨Or.inr h, by simp, ?_⟩
    intro b hb
    rw [hb] at h
    cases h
    exact le_refl _
  | cons x ks ih =>
    rw [List.foldl_cons] at h
    have hstep : ∀ c, (match acc with
        | none => some x
        | some b =>
          if Frac.lt (similarity b w) (similarity x w)
              || (Frac.eqv (similarity b w) (similarity x w) && strLt b x) then
            some x
          else some b) = some c →
        (c = x ∨ acc = some c) ∧ (similarity x w).val ≤ (similarity c w).val ∧
          (∀ b, acc = some b → (similarity b w).val ≤ (similarity c w).val) := by
      intro c hc
      cases acc with
      | none =>
        simp only [] at hc
        cases hc
        exact ⟨Or.inl rfl, le_refl _, by simp⟩
      | some b =>
        simp only [] at hc
        by_cases hcond : (Frac.lt (similarity b w) (similarity x w)
            || (Frac.eqv (similarity b w) (similarity x w) && strLt b x)) = true
        · rw [if_pos hcond] at hc
          cases hc
          rcases Bool.or_eq_true_iff.1 hcond with hlt | heq
          · have := (Frac.lt_val_iff _ _ (similarity_den_pos b w) (similarity_den_pos x w)).1 hlt
            exact ⟨Or.inl rfl, le_refl _, fun b' hb' => by
              cases hb'; exact le_of_lt this⟩
          · have := (Frac.eqv_val_iff _ _ (similarity_den_pos b w)
              (similarity_den_pos x w)).1 (Bool.and_eq_true_iff.1 heq).1
            exact ⟨Or.inl rfl, le_refl _, fun b' hb' => by cases hb'; exact le_of_eq this⟩
        · rw [if_neg hcond] at hc
          cases hc
          have hnlt : Frac.lt (similarity c w) (similarity x w) = false := by
            rcases hb : Frac.lt (similarity c w) (similarity x w) with _ | _
            · rfl
            · exact absurd (Bool.or_eq_true_iff.2 (Or.inl hb)) hcond
          have : ¬ (similarity c w).val < (similarity x w).val := by
            intro hlt
            rw [← Frac.lt_val_iff _ _ (similarity_den_pos c w) (similarity_den_pos x w)] at hlt
            rw [hnlt] at hlt
            exact Bool.false_ne_true hlt
          exact ⟨Or.inr rfl, le_of_not_lt this, fun b' hb' => by cases hb'; exact le_refl _⟩
    rcases hres : (match acc with
        | none => some x
        | some b =>
          if Frac.lt (similarity b w) (similarity x w)
              || (Frac.eqv (similarity b w) (similarity x w) && strLt b x) then
            some x
          else some b) with _ | c
    · exact absurd hres (pickBestKey_step_ne_none w acc x)
    · rw [hres] at h
      obtain ⟨hmem, hks, hacc⟩ := ih _ h
      obtain ⟨hcx, hxc, haccc⟩ := hstep c hres
      have hcm : (similarity c w).val ≤ (similarity m w).val := hacc c rfl
      refine ⟨?_, ?_, ?_⟩
      · rcases hmem with hm | hm
        · exact Or.inl (List.mem_cons_of_mem x hm)
        · injection hm with hm2
          subst hm2
          rcases hcx with h1 | h1
          · subst h1
            exact Or.inl (List.mem_cons_self _ _)
          · exact Or.inr h1
      · intro k hk
        rcases List.mem_cons.1 hk with hk | hk
        · subst hk
          exact le_trans hxc hcm
        · exact hks k hk
      · intro b hb
        exact le_trans (haccc b hb) hcm

theorem getCloseMatch1_some (w : List Char) (ks : List (List Char)) (c : Frac) (m : List Char)
    (hc : 0 < c.den) (h : getCloseMatch1 w ks c = some m) :
    m ∈ ks ∧ c.val ≤ (similarity m w).val ∧
      ∀ k ∈ ks, (similarity k w).val ≤ (similarity m w).val := by
  unfold getCloseMatch1 pickBestKey at h
  obtain ⟨hmem, hmax, _⟩ := pickBestKey_spec w _ none m h
  rcases hmem with hmem | hmem
  · obtain ⟨hks, hpred⟩ := List.mem_filter.1 hmem
    refine ⟨hks, ?_, ?_⟩
    · exact (Frac.le_val_iff c _ hc (similarity_den_pos m w)).1 hpred
    · intro k hk
      by_cases hkf : Frac.le c (similarity k w) = true
      · exact hmax k (List.mem_filter.2 ⟨hk, hkf⟩)
      · have hlt : ¬ c.val ≤ (similarity k w).val := by
          rw [← Frac.le_val_iff c _ hc (similarity_den_pos k w)]
          simp [hkf]
        have hcm : c.val ≤ (similarity m w).val :=
          (Frac.le_val_iff c _ hc (similarity_den_pos m w)).1 hpred
        exact le_trans (le_of_lt (lt_of_not_le hlt)) hcm
  · exact absurd hmem (by simp)

theorem getCloseMatch1_none (w : List Char) (ks : List (List Char)) (c : Frac)
    (hc : 0 < c.den) (h : getCloseMatch1 w ks c = none) :
    ∀ k ∈ ks, (similarity k w).val < c.val := by
  unfold getCloseMatch1 at h
  rw [pickBestKey_none_iff] at h
  intro k hk
  have hpred : ¬ Frac.le c (similarity k w) = true := by
    intro hcontra
    have := List.filter_eq_nil.1 h k hk
    simp [hcontra] at this
  rw [Frac.le_val_iff c _ hc (similarity_den_pos k w)] at hpred
  exact lt_of_not_le hpred

theorem cutoff060_val : cutoff060.val = (3 : Rat) / 5 := by
  unfold cutoff060 Frac.val
  norm_num

/-- C4.  For every rubric criterion, `_align_and_clamp` resolves its score
by: the exact normalized match if one exists; otherwise the fuzzy match,
accepted only when the best similarity ratio is at least the cutoff `0.60`
(the accepted key is one of the raw keys, reaches the cutoff, and no raw key
has a higher ratio); otherwise the score is 0 and the criterion's name lands
in the sanity report's unknown-criteria list.  The aligned entry carries the
clamp of the resolved score. -/
theorem C4_resolution_order (rubric : List RubricItem) (bd : List MItem) (i : Nat)
    (r : RubricItem) (hr : rubric[i]? = some r) :
    (alignAndClamp rubric bd cutoff060).1[i]?
        = some ⟨r.criteria,
            max 0 (min (resolveScore (scanItems bd).mm (scanItems bd).keys cutoff060
              (normalize r.criteria)) r.points)⟩ ∧
      (∀ v, mmLookup (scanItems bd).mm (normalize r.criteria) = some v →
        resolveScore (scanItems bd).mm (scanItems bd).keys cutoff060 (normalize r.criteria) = v) ∧
      (mmLookup (scanItems bd).mm (normalize r.criteria) = none →
        (∀ m, getCloseMatch1 (normalize r.criteria) (scanItems bd).keys cutoff060 = some m →
          m ∈ (scanItems bd).keys ∧
          (3 : Rat) / 5 ≤ (similarity m (normalize r.criteria)).val ∧
          (∀ k ∈ (scanItems bd).keys,
            (similarity k (normalize r.criteria)).val
              ≤ (similarity m (normalize r.criteria)).val) ∧
          resolveScore (scanItems bd).mm (scanItems bd).keys cutoff060 (normalize r.criteria)
            = (mmLookup (scanItems bd).mm m).getD 0) ∧
        (getCloseMatch1 (normalize r.criteria) (scanItems bd).keys cutoff060 = none →
          (∀ k ∈ (scanItems bd).keys,
            (similarity k (normalize r.criteria)).val < (3 : Rat) / 5) ∧
          resolveScore (scanItems bd).mm (scanItems bd).keys cutoff060 (normalize r.criteria)
              = 0 ∧
          r.criteria ∈ (alignAndClamp rubric bd cutoff060).2.unknown_criteria)) := by
  refine ⟨?_, ?_, ?_⟩
  · rw [alignAndClamp_fst, List.getElem?_map, hr, Option.map_some']
  · intro v hv
    unfold resolveScore
    rw [hv]
  · intro hnone
    constructor
    · intro m hm
      obtain ⟨hmk, hcv, hmax⟩ := getCloseMatch1_some _ _ _ _ (by decide) hm
      rw [cutoff060_val] at hcv
      refine ⟨hmk, hcv, hmax, ?_⟩
      unfold resolveScore
      rw [hnone, hm]
    · intro hm
      have hall := getCloseMatch1_none _ _ _ (by decide) hm
      refine ⟨?_, ?_, ?_⟩
      · intro k hk
        have := hall k hk
        rwa [cutoff060_val] at this
      · unfold resolveScore
        rw [hnone, hm]
      · have hne : rubric ≠ [] := by
          intro hE
          subst hE
          simp at hr
        rw [alignAndClamp_unknown _ _ _ hne]
        refine List.mem_map.2 ⟨r, List.mem_filter.2 ⟨List.getElem?_mem hr, ?_⟩, rfl⟩
        unfold noMatchB
        rw [hnone, hm]
        rfl

/-- Witness for C4 at a concrete input: `ab` has no exact match among the raw
keys, fuzzily matches `ab x` (ratio 2/3 ≥ 0.60) and takes its score. -/
theorem C4_resolution_order_witness :
    (alignAndClamp [⟨"ab".data, 2⟩] [MItem.entry "ab x".data (RawVal.vint 1)] cutoff060).1[0]?
        = some ⟨"ab".data,
            max 0 (min (resolveScore (scanItems [MItem.entry "ab x".data (RawVal.vint 1)]).mm
              (scanItems [MItem.entry "ab x".data (RawVal.vint 1)]).keys cutoff060
              (normalize "ab".data)) 2)⟩ ∧
      "ab x".data ∈ (scanItems [MItem.entry "ab x".data (RawVal.vint 1)]).keys ∧
      (3 : Rat) / 5 ≤ (similarity "ab x".data (normalize "ab".data)).val ∧
      resolveScore (scanItems [MItem.entry "ab x".data (RawVal.vint 1)]).mm
          (scanItems [MItem.entry "ab x".data (RawVal.vint 1)]).keys cutoff060
          (normalize "ab".data)
        = (mmLookup (scanItems [MItem.entry "ab x".data (RawVal.vint 1)]).mm "ab x".data).getD 0 := by
  have h := C4_resolution_order [⟨"ab".data, 2⟩] [MItem.entry "ab x".data (RawVal.vint 1)] 0
    ⟨"ab".data, 2⟩ (by decide)
  obtain ⟨h1, _, h3⟩ := h
  obtain ⟨hmk, hcv, _, hres⟩ := (h3 (by decide)).1 "ab x".data (by decide)
  exact ⟨h1, hmk, hcv, hres⟩

/-- `roundHalfEven` really is round-to-nearest with ties to even: the result
is within one half of the value, and a result exactly one half away is even. -/
theorem roundHalfEven_spec (q : Frac) (hd : 0 < q.den) :
    (q.val - 1 / 2 ≤ (roundHalfEven q : Rat)) ∧
      ((roundHalfEven q : Rat) ≤ q.val + 1 / 2) ∧
      (((roundHalfEven q : Rat) = q.val + 1 / 2 ∨ (roundHalfEven q : Rat) = q.val - 1 / 2) →
        roundHalfEven q % 2 = 0) := by
  have hd' : (0 : Int) < (q.den : Int) := by exact_mod_cast hd
  have hfe : q.num.fdiv (q.den : Int) = q.num / (q.den : Int) :=
    Int.fdiv_eq_ediv q.num (le_of_lt hd')
  have hkey : (q.den : Int) * (q.num / (q.den : Int)) + q.num % (q.den : Int) = q.num :=
    Int.ediv_add_emod q.num (q.den : Int)
  have h0 : 0 ≤ q.num % (q.den : Int) := Int.emod_nonneg q.num (ne_of_gt hd')
  have h1 : q.num % (q.den : Int) < (q.den : Int) := Int.emod_lt_of_pos q.num hd'
  have hfd : q.num.fdiv (q.den : Int) * (q.den : Int) = q.num - q.num % (q.den : Int) := by
    rw [hfe, mul_comm]
    linarith [hkey]
  have hDpos : (0 : Rat) < (q.den : Rat) := by exact_mod_cast hd
  have hQ1 : ∀ n : Int, 2 * q.num - (q.den : Int) ≤ 2 * n * (q.den : Int) →
      q.val - 1 / 2 ≤ (n : Rat) := by
    intro n hI
    unfold Frac.val
    rw [sub_le_iff_le_add, div_le_iff hDpos]
    have hI' : 2 * (q.num : Rat) - (q.den : Rat) ≤ 2 * (n : Rat) * (q.den : Rat) := by
      exact_mod_cast hI
    ring_nf
    ring_nf at hI'
    linarith
  have hQ2 : ∀ n : Int, 2 * n * (q.den : Int) ≤ 2 * q.num + (q.den : Int) →
      (n : Rat) ≤ q.val + 1 / 2 := by
    intro n hI
    have hI' : 2 * (n : Rat) * (q.den : Rat) ≤ 2 * (q.num : Rat) + (q.den : Rat) := by
      exact_mod_cast hI
    have hstep : ((n : Rat) - 1 / 2) * (q.den : Rat) ≤ (q.num : Rat) := by
      ring_nf
      ring_nf at hI'
      linarith
    have := (le_div_iff hDpos).2 hstep
    unfold Frac.val
    linarith
  have hQ3 : ∀ n : Int,
      ((n : Rat) = q.val + 1 / 2 ∨ (n : Rat) = q.val - 1 / 2) →
      2 * n * (q.den : Int) = 2 * q.num + (q.den : Int) ∨
        2 * n * (q.den : Int) = 2 * q.num - (q.den : Int) := by
    intro n hI
    have hDne : (q.den : Rat) ≠ 0 := ne_of_gt hDpos
    rcases hI with hI | hI
    · left
      have h2 : (q.num : Rat) / (q.den : Rat) = (n : Rat) - 1 / 2 := by
        unfold Frac.val at hI
        linarith
      rw [div_eq_iff hDne] at h2
      have h3 : 2 * (n : Rat) * (q.den : Rat) = 2 * (q.num : Rat) + (q.den : Rat) := by
        ring_nf
        ring_nf at h2
        linarith
      exact_mod_cast h3
    · right
      have h2 : (q.num : Rat) / (q.den : Rat) = (n : Rat) + 1 / 2 := by
        unfold Frac.val at hI
        linarith
      rw [div_eq_iff hDne] at h2
      have h3 : 2 * (n : Rat) * (q.den : Rat) = 2 * (q.num : Rat) - (q.den : Rat) := by
        ring_nf
        ring_nf at h2
        linarith
      exact_mod_cast h3
  unfold roundHalfEven
  dsimp only
  split_ifs with hA hB hC
  · refine ⟨hQ1 _ (by nlinarith [hfd]), hQ2 _ (by nlinarith [hfd]), ?_⟩
    intro hb
    rcases hQ3 _ hb with he | he <;> nlinarith [hfd]
  · refine ⟨hQ1 _ (by nlinarith [hfd]), hQ2 _ (by nlinarith [hfd]), ?_⟩
    intro hb
    rcases hQ3 _ hb with he | he <;> nlinarith [hfd]
  · refine ⟨hQ1 _ (by nlinarith [hfd]), hQ2 _ (by nlinarith [hfd]), ?_⟩
    intro _
    exact hC
  · refine ⟨hQ1 _ (by nlinarith [hfd]), hQ2 _ (by nlinarith [hfd]), ?_⟩
    intro _
    omega

theorem scanStep_coerced (st : ScanState) (it : MItem) (h : st.coerced = true) :
    (scanStep st it).coerced = true := by
  cases it with
  | junk => exact h
  | entry c sraw =>
    unfold scanStep
    dsimp only
    split_ifs <;> simp [h]

theorem scanFold_coerced (bd : List MItem) (st : ScanState) (h : st.coerced = true) :
    (bd.foldl scanStep st).coerced = true := by
  induction bd generalizing st with
  | nil => exact h
  | cons it bd ih => exact ih _ (scanStep_coerced st it h)

theorem scanItems_vnone_coerced (cr : List Char) (bd : List MItem) :
    (scanItems (MItem.entry cr RawVal.vnone :: bd)).coerced = true := by
  unfold scanItems
  rw [List.foldl_cons]
  apply scanFold_coerced
  unfold scanStep
  dsimp only
  split_ifs <;> rfl

theorem alignAndClamp_coerced (rubric : List RubricItem) (bd : List MItem) (c : Frac)
    (h : rubric ≠ []) :
    (alignAndClamp rubric bd c).2.coerced_types = (scanItems bd).coerced := by
  unfold alignAndClamp
  rw [if_neg (by simpa [List.isEmpty_iff] using h)]

/-- Rounding with ties half up, `⌊q + 1/2⌋`: the tie-breaking rule the claim
asserts, written here only to be compared against the code's rounding. -/
def roundTiesUpSpec (q : Frac) : Int :=
  (2 * q.num + (q.den : Int)).fdiv (2 * (q.den : Int))

/-- C5, counterexample.  The float `2.5` (an exactly representable value)
coerces to `2` under `_as_int` — Python's `round` is round-half-to-even —
while the claim's ties-round-half-up rule demands `3`. -/
theorem C5_coercion_counterexample :
    asInt (RawVal.vfloat ⟨5, 2⟩) 0 = 2 ∧
      (⟨5, 2⟩ : Frac).val = 5 / 2 ∧
      roundTiesUpSpec ⟨5, 2⟩ = 3 ∧
      asInt (RawVal.vfloat ⟨5, 2⟩) 0 ≠ roundTiesUpSpec ⟨5, 2⟩ := by
  refine ⟨by decide, ?_, by decide, by decide⟩
  unfold Frac.val
  norm_num

/-- C5, amended.  `_as_int` maps an integer to itself; a float to the nearest
integer with ties to even (the result is within one half of the value, and
exactly-half results are even); a numeric string to its parsed value rounded
the same way; and any non-numeric or unparsable value to the default `0`,
in which case the aligner sets the sanity report's coerced-types flag. -/
theorem C5_coercion_amended :
    (∀ i d : Int, asInt (RawVal.vint i) d = i) ∧
      (∀ (q : Frac) (d : Int), 0 < q.den →
        (q.val - 1 / 2 ≤ (asInt (RawVal.vfloat q) d : Rat)) ∧
        ((asInt (RawVal.vfloat q) d : Rat) ≤ q.val + 1 / 2) ∧
        (((asInt (RawVal.vfloat q) d : Rat) = q.val + 1 / 2 ∨
            (asInt (RawVal.vfloat q) d : Rat) = q.val - 1 / 2) →
          asInt (RawVal.vfloat q) d % 2 = 0)) ∧
      (∀ (s : List Char) (d : Int) (q : Frac), pyFloatParse (pyStrip s) = some q →
        asInt (RawVal.vstr s) d = roundHalfEven q) ∧
      (∀ (s : List Char) (d : Int), pyFloatParse (pyStrip s) = none →
        asInt (RawVal.vstr s) d = d) ∧
      (∀ d : Int, asInt RawVal.vnone d = d) ∧
      (∀ (rubric : List RubricItem) (bd : List MItem) (c : Frac) (cr : List Char),
        rubric ≠ [] →
        (alignAndClamp rubric (MItem.entry cr RawVal.vnone :: bd) c).2.coerced_types = true) := by
  refine ⟨fun i d => rfl, fun q d hq => roundHalfEven_spec q hq, ?_, ?_, fun d => rfl, ?_⟩
  · intro s d q hp
    show (match pyFloatParse (pyStrip s) with
      | some q => roundHalfEven q
      | none => d) = roundHalfEven q
    rw [hp]
  · intro s d hp
    show (match pyFloatParse (pyStrip s) with
      | some q => roundHalfEven q
      | none => d) = d
    rw [hp]
  · intro rubric bd c cr h
    rw [alignAndClamp_coerced _ _ _ h]
    exact scanItems_vnone_coerced cr bd

/-- Witness for C5's amended theorem: the string `"2.5"` parses to `25/10`
and is rounded like the code does, and a `None` score raises the
coerced-types flag. -/
theorem C5_coercion_amended_witness :
    asInt (RawVal.vstr "2.5".data) 0 = roundHalfEven ⟨25, 10⟩ ∧
      (alignAndClamp [⟨"a".data, 1⟩] [MItem.entry "c".data RawVal.vnone]
          cutoff060).2.coerced_types = true :=
  ⟨C5_coercion_amended.2.2.1 "2.5".data 0 ⟨25, 10⟩ (by decide),
    C5_coercion_amended.2.2.2.2.2 [⟨"a".data, 1⟩] [] cutoff060 "c".data (by decide)⟩

theorem splitNl_ne_nil (t : List Char) : splitNl t ≠ [] := by
  cases t with
  | nil => simp [splitNl]
  | cons c cs =>
    unfold splitNl
    split_ifs
    · simp
    · rcases h : splitNl cs with _ | ⟨p, ps⟩ <;> simp

theorem splitNl_no_nl (t : List Char) : ∀ p ∈ splitNl t, '\n' ∉ p := by
  induction t with
  | nil =>
    intro p hp
    simp [splitNl] at hp
    simp [hp]
  | cons c cs ih =>
    intro p hp
    unfold splitNl at hp
    by_cases hc : c = '\n'
    · rw [if_pos hc] at hp
      rcases List.mem_cons.1 hp with h | h
      · simp [h]
      · exact ih p h
    · rw [if_neg hc] at hp
      rcases hs : splitNl cs with _ | ⟨q, qs⟩
      · exact absurd hs (splitNl_ne_nil cs)
      · rw [hs] at hp
        rcases List.mem_cons.1 hp with h | h
        · subst h
          intro hmem
          rcases List.mem_cons.1 hmem with h2 | h2
          · exact hc h2.symm
          · exact ih q (hs ▸ List.mem_cons_self q qs) h2
        · exact ih p (hs ▸ List.mem_cons_of_mem q h)

theorem pyStrip_mem {x : Char} {l : List Char} (h : x ∈ pyStrip l) : x ∈ l := by
  unfold pyStrip at h
  rw [List.mem_reverse] at h
  have h2 := (List.dropWhile_sublist pySpace).mem h
  rw [List.mem_reverse] at h2
  exact (List.dropWhile_sublist pySpace).mem h2

theorem pyStrip_no_nl {l : List Char} (h : '\n' ∉ l) : '\n' ∉ pyStrip l :=
  fun hc => h (pyStrip_mem hc)

theorem dropWhile_idem (p : Char → Bool) (l : List Char) :
    (l.dropWhile p).dropWhile p = l.dropWhile p := by
  induction l with
  | nil => rfl
  | cons c cs ih =>
    by_cases h : p c
    · rw [List.dropWhile_cons_of_pos h]
      exact ih
    · rw [List.dropWhile_cons_of_neg h, List.dropWhile_cons_of_neg h]

theorem dropWhile_head_false (p : Char → Bool) (l : List Char) (c : Char) (cs : List Char)
    (h : l.dropWhile p = c :: cs) : p c = false := by
  induction l with
  | nil => simp [List.dropWhile] at h
  | cons d ds ih =>
    by_cases hd : p d
    · rw [List.dropWhile_cons_of_pos hd] at h
      exact ih h
    · rw [List.dropWhile_cons_of_neg hd] at h
      injection h with h1 _
      subst h1
      simpa using hd

theorem pyStrip_idem (l : List Char) : pyStrip (pyStrip l) = pyStrip l := by
  have hb : (pyStrip l).reverse.dropWhile pySpace = (pyStrip l).reverse := by
    unfold pyStrip
    rw [List.reverse_reverse]
    exact dropWhile_idem pySpace _
  have ha : (pyStrip l).dropWhile pySpace = pyStrip l := by
    rcases hres : pyStrip l with _ | ⟨c, cs⟩
    · rfl
    · have hpre : pyStrip l <+: l.dropWhile pySpace := by
        unfold pyStrip
        rw [← List.reverse_suffix]
        rw [List.reverse_reverse]
        exact List.dropWhile_suffix pySpace
      rw [hres] at hpre
      obtain ⟨tail, htail⟩ := hpre
      have hc : pySpace c = false := by
        apply dropWhile_head_false pySpace l c (cs ++ tail)
        rw [← htail]
        simp
      rw [List.dropWhile_cons_of_neg (by simp [hc])]
  show (((pyStrip l).dropWhile pySpace).reverse.dropWhile pySpace).reverse = pyStrip l
  rw [ha, hb, List.reverse_reverse]

theorem splitNl_append_cons (x t : List Char) (h : '\n' ∉ x) :
    splitNl (x ++ '\n' :: t) = x :: splitNl t := by
  induction x with
  | nil =>
    simp only [List.nil_append]
    conv_lhs => unfold splitNl
    rw [if_pos rfl]
  | cons c cs ih =>
    have hc : ¬ c = '\n' := fun hcc => h (hcc ▸ List.mem_cons_self c cs)
    have hcs : '\n' ∉ cs := fun hmem => h (List.mem_cons_of_mem c hmem)
    simp only [List.cons_append]
    conv_lhs => unfold splitNl
    rw [if_neg hc, ih hcs]

theorem splitNl_of_no_nl (x : List Char) (h : '\n' ∉ x) : splitNl x = [x] := by
  induction x with
  | nil => rfl
  | cons c cs ih =>
    have hc : ¬ c = '\n' := fun hcc => h (hcc ▸ List.mem_cons_self c cs)
    have hcs : '\n' ∉ cs := fun hmem => h (List.mem_cons_of_mem c hmem)
    unfold splitNl
    rw [if_neg hc, ih hcs]

theorem splitNl_joinNl (ps : List (List Char)) (hne : ps ≠ [])
    (h : ∀ p ∈ ps, '\n' ∉ p) : splitNl (joinNl ps) = ps := by
  induction ps with
  | nil => exact absurd rfl hne
  | cons x ps ih =>
    cases ps with
    | nil =>
      show splitNl (joinNl [x]) = [x]
      exact splitNl_of_no_nl x (h x (List.mem_cons_self x []))
    | cons y qs =>
      show splitNl (x ++ '\n' :: joinNl (y :: qs)) = x :: y :: qs
      rw [splitNl_append_cons x _ (h x (List.mem_cons_self x _))]
      rw [ih (by simp) (fun p hp => h p (List.mem_cons_of_mem x hp))]

theorem linesOf_mem (t : List Char) (l : List Char) (h : l ∈ linesOf t) :
    pyStrip l = l ∧ l ≠ [] ∧ '\n' ∉ l := by
  unfold linesOf at h
  obtain ⟨hmem, hpred⟩ := List.mem_filter.1 h
  obtain ⟨p, hp, rfl⟩ := List.mem_map.1 hmem
  refine ⟨pyStrip_idem p, ?_, pyStrip_no_nl (splitNl_no_nl t p hp)⟩
  intro hE
  rw [hE] at hpred
  simp at hpred

theorem dedupeLoop_mem (seen ls : List (List Char)) (x : List Char)
    (h : x ∈ dedupeLoop seen ls) : x ∈ ls := by
  induction ls generalizing seen with
  | nil => simp [dedupeLoop] at h
  | cons l rest ih =>
    unfold dedupeLoop at h
    by_cases hk : dedupeKey l ∈ seen
    · rw [if_pos hk] at h
      exact List.mem_cons_of_mem l (ih _ h)
    · rw [if_neg hk] at h
      rcases List.mem_cons.1 h with h1 | h1
      · exact h1 ▸ List.mem_cons_self l rest
      · exact List.mem_cons_of_mem l (ih _ h1)

theorem dedupeLoop_keys (seen ls : List (List Char)) :
    ((dedupeLoop seen ls).map dedupeKey).Nodup ∧
      ∀ k ∈ (dedupeLoop seen ls).map dedupeKey, k ∉ seen := by
  induction ls generalizing seen with
  | nil => simp [dedupeLoop]
  | cons l rest ih =>
    unfold dedupeLoop
    by_cases hk : dedupeKey l ∈ seen
    · rw [if_pos hk]
      exact ih seen
    · rw [if_neg hk]
      obtain ⟨hnd, hdisj⟩ := ih (dedupeKey l :: seen)
      constructor
      · simp only [List.map_cons, List.nodup_cons]
        refine ⟨?_, hnd⟩
        intro hmem
        exact (hdisj _ hmem) (List.mem_cons_self _ _)
      · intro k hkm
        simp only [List.map_cons, List.mem_cons] at hkm
        rcases hkm with rfl | hkm
        · exact hk
        · intro hkseen
          exact (hdisj k hkm) (List.mem_cons_of_mem _ hkseen)

theorem dedupeLoop_eq_self (seen ls : List (List Char)) (hnd : (ls.map dedupeKey).Nodup)
    (hdisj : ∀ k ∈ ls.map dedupeKey, k ∉ seen) : dedupeLoop seen ls = ls := by
  induction ls generalizing seen with
  | nil => rfl
  | cons l rest ih =>
    unfold dedupeLoop
    have hk : dedupeKey l ∉ seen := hdisj _ (by simp)
    rw [if_neg hk]
    congr 1
    simp only [List.map_cons, List.nodup_cons] at hnd
    apply ih
    · exact hnd.2
    · intro k hkm hkc
      rcases List.mem_cons.1 hkc with h1 | h1
      · exact hnd.1 (h1 ▸ hkm)
      · exact hdisj k (List.mem_cons_of_mem _ hkm) h1

theorem dedupeLoop_keepFirst (ls seen : List (List Char)) :
    dedupeLoop seen ls
      = keepFirstByKey (ls.filter (fun l => decide (dedupeKey l ∉ seen))) := by
  induction ls generalizing seen with
  | nil => simp [dedupeLoop, keepFirstByKey]
  | cons l rest ih =>
    unfold dedupeLoop
    rw [List.filter_cons]
    by_cases hk : dedupeKey l ∈ seen
    · rw [if_pos hk, if_neg (by simp [hk]), ih seen]
    · rw [if_neg hk, if_pos (by simp [hk])]
      unfold keepFirstByKey
      congr 1
      rw [ih (dedupeKey l :: seen), List.filter_filter]
      congr 1
      apply List.filter_congr
      intro m _
      simp [List.mem_cons, not_or, and_comm]

/-- C8.  Feedback de-duplication is idempotent: running `_dedupe_feedback` on
its own output changes nothing. -/
theorem C8_dedupe_idempotent (t : List Char) :
    dedupeFeedback (dedupeFeedback t) = dedupeFeedback t := by
  rcases hout : dedupeLines t with _ | ⟨x, xs⟩
  · have hft : dedupeFeedback t = [] := by
      unfold dedupeFeedback
      rw [hout]
      rfl
    rw [hft]
    rfl
  · have hne : dedupeLines t ≠ [] := by
      rw [hout]
      simp
    have hmemprops : ∀ l ∈ dedupeLines t, pyStrip l = l ∧ l ≠ [] ∧ '\n' ∉ l := by
      intro l hl
      exact linesOf_mem t l (dedupeLoop_mem _ _ _ hl)
    have hlines : linesOf (dedupeFeedback t) = dedupeLines t := by
      unfold linesOf dedupeFeedback
      rw [splitNl_joinNl _ hne (fun p hp => (hmemprops p hp).2.2)]
      have hmap : (dedupeLines t).map pyStrip = dedupeLines t := by
        have h1 : (dedupeLines t).map pyStrip = (dedupeLines t).map id :=
          List.map_congr_left (fun a ha => (hmemprops a ha).1)
        rw [h1, List.map_id]
      rw [hmap]
      apply List.filter_eq_self.2
      intro a ha
      simp [(hmemprops a ha).2.1]
    obtain ⟨hnd, _⟩ := dedupeLoop_keys [] (linesOf t)
    have hloop : dedupeLines (dedupeFeedback t) = dedupeLines t := by
      unfold dedupeLines
      rw [hlines]
      exact dedupeLoop_eq_self [] _ hnd (by simp)
    show joinNl (dedupeLines (dedupeFeedback t)) = dedupeFeedback t
    rw [hloop]
    rfl

/-- C10.  Every line of the de-duplicated feedback is non-blank and is the
trimmed original text of an input line, and the kept lines are exactly the
first occurrence of every key: a later line whose lowercased,
non-word-collapsed form equals that of an earlier line is dropped. -/
theorem C10_dedupe_characterization (t : List Char) :
    (∀ l ∈ dedupeLines t, l ≠ [] ∧ pyStrip l = l) ∧
      dedupeLines t = keepFirstByKey (linesOf t) ∧
      dedupeFeedback t = joinNl (dedupeLines t) := by
  refine ⟨?_, ?_, rfl⟩
  · intro l hl
    obtain ⟨h1, h2, _⟩ := linesOf_mem t l (dedupeLoop_mem _ _ _ hl)
    exact ⟨h2, h1⟩
  · unfold dedupeLines
    rw [dedupeLoop_keepFirst]
    congr 1
    apply List.filter_eq_self.2
    intro a _
    simp

/-- Witness for C10 at a concrete input: `a B` duplicates `A b!` up to case
and punctuation and is dropped; the blank line disappears. -/
theorem C10_dedupe_characterization_witness :
    dedupeLines "A b!\n\na B\nc".data = keepFirstByKey (linesOf "A b!\n\na B\nc".data) ∧
      dedupeLines "A b!\n\na B\nc".data = ["A b!".data, "c".data] :=
  ⟨(C10_dedupe_characterization "A b!\n\na B\nc".data).2.1, by decide⟩

theorem zip_getElem? {α β : Type} (l1 : List α) (l2 : List β) (i : Nat) (a : α) (b : β)
    (h1 : l1[i]? = some a) (h2 : l2[i]? = some b) : (l1.zip l2)[i]? = some (a, b) := by
  induction l1 generalizing l2 i with
  | nil => simp at h1
  | cons x l1 ih =>
    cases l2 with
    | nil => simp at h2
    | cons y l2 =>
      cases i with
      | zero =>
        simp only [List.getElem?_cons_zero, Option.some.injEq] at h1 h2
        subst h1
        subst h2
        simp [List.zip_cons_cons]
      | succ n =>
        simp only [List.getElem?_cons_succ] at h1 h2
        simp only [List.zip_cons_cons, List.getElem?_cons_succ]
        exact ih l2 n h1 h2

/-- The header format the claim asserts: a bare `Total: t/p` line followed
directly by the per-criterion lines.  Written from the claim's words, only to
be compared against the code's `_feedback_header`. -/
def specHeaderC9 (rubric : List RubricItem) (aligned : List AlignedItem) (total : Int) :
    List Char :=
  joinNl (("Total: ".data ++ intToStr total ++ "/".data ++ intToStr (totalPossible rubric)) ::
    (rubric.zip aligned).map (fun p =>
      "- ".data ++ p.1.criteria ++ ": ".data ++ intToStr p.2.score ++ "/".data
        ++ intToStr p.1.points))

/-- C9, counterexample.  The real header wraps the total line in `**…**` and
inserts a literal `Rubric Breakdown:` line before the per-criterion lines,
so it differs from the claim's `Total: …` + criterion-lines format. -/
theorem C9_header_counterexample :
    feedbackHeader [⟨"a".data, 2⟩] [⟨"a".data, 2⟩] 2
        = "**Total: 2/2**\nRubric Breakdown:\n- a: 2/2".data ∧
      specHeaderC9 [⟨"a".data, 2⟩] [⟨"a".data, 2⟩] 2 = "Total: 2/2\n- a: 2/2".data ∧
      feedbackHeader [⟨"a".data, 2⟩] [⟨"a".data, 2⟩] 2
        ≠ specHeaderC9 [⟨"a".data, 2⟩] [⟨"a".data, 2⟩] 2 := by
  refine ⟨by decide, by decide, by decide⟩

/-- C9, amended.  The feedback header consists of the line
`**Total: {total}/{totalPossible}**`, then the literal line
`Rubric Breakdown:`, then exactly one line `- {criteria}: {score}/{points}`
per rubric criterion, in rubric order. -/
theorem C9_header_amended (rubric : List RubricItem) (aligned : List AlignedItem) (total : Int)
    (h : aligned.length = rubric.length) :
    feedbackHeader rubric aligned total = joinNl (headerLines rubric aligned total) ∧
      headerLines rubric aligned total
        = ("**Total: ".data ++ intToStr total ++ "/".data ++ intToStr (totalPossible rubric)
            ++ "**".data) ::
          "Rubric Breakdown:".data ::
          (rubric.zip aligned).map (fun p =>
            "- ".data ++ p.1.criteria ++ ": ".data ++ intToStr p.2.score ++ "/".data
              ++ intToStr p.1.points) ∧
      ((rubric.zip aligned).map (fun p =>
          "- ".data ++ p.1.criteria ++ ": ".data ++ intToStr p.2.score ++ "/".data
            ++ intToStr p.1.points)).length = rubric.length ∧
      (∀ (i : Nat) (r : RubricItem) (a : AlignedItem),
        rubric[i]? = some r → aligned[i]? = some a →
        ((rubric.zip aligned).map (fun p =>
            "- ".data ++ p.1.criteria ++ ": ".data ++ intToStr p.2.score ++ "/".data
              ++ intToStr p.1.points))[i]?
          = some ("- ".data ++ r.criteria ++ ": ".data ++ intToStr a.score ++ "/".data
              ++ intToStr r.points)) := by
  refine ⟨rfl, rfl, ?_, ?_⟩
  · rw [List.length_map, List.length_zip, h, min_self]
  · intro i r a h1 h2
    rw [List.getElem?_map, zip_getElem? rubric aligned i r a h1 h2, Option.map_some']

/-- Witness for C9's amended theorem at a concrete input. -/
theorem C9_header_amended_witness :
    ((([⟨"a".data, 2⟩] : List RubricItem).zip ([⟨"a".data, 3⟩] : List AlignedItem)).map (fun p =>
        "- ".data ++ p.1.criteria ++ ": ".data ++ intToStr p.2.score ++ "/".data
          ++ intToStr p.1.points))[0]?
      = some ("- ".data ++ "a".data ++ ": ".data ++ intToStr 3 ++ "/".data ++ intToStr 2) :=
  (C9_header_amended [⟨"a".data, 2⟩] [⟨"a".data, 3⟩] 5 rfl).2.2.2 0 ⟨"a".data, 2⟩
    ⟨"a".data, 3⟩ rfl rfl

end Autograder
